import Mathlib

/-!
Shallow embedding of the OpenVehicleDiag decode core
(`common/src/schema/diag/service.rs`): the bit extractor
`Parameter::get_number`, the two decode entry points
`decode_value_to_string` / `decode_value_to_number`, and the data model
around them.

Modelling conventions:
* Byte buffers are `List Nat`; all `u8`/`u16`/`u32` arithmetic from the
  source is written with explicit `% 2 ^ 8` (etc.) where the machine
  width matters.
* `f32` values are modelled as exact rationals (`ℚ`); the `u32 → f32`
  cast is modelled as the exact injection and float arithmetic as exact
  rational arithmetic.
* Rust panics are modelled as `Option.none`.  Inside `get_number` the
  source wraps the extraction in `std::panic::catch_unwind` and maps a
  caught panic to `BitRangeError`; the byte-slicing panics in the
  `HexDump`/`String` branches of `decode_value_to_string` are *not*
  caught, so that function returns `Option (Except ...)`, with `none`
  meaning the call panics.
* Fallible operations return `Except ParamDecodeError _`, mirroring
  `std::result::Result`.
-/

deriving instance DecidableEq for Except

/-- Byte order tag of a parameter (`ParamByteOrder` in the source). -/
inductive ParamByteOrder where
  | BigEndian
  | LittleEndian
deriving DecidableEq

/-- Decode error kind (`ParamDecodeError` in the source).  The source's
`StringDecodeFailure(FromUtf8Error)` payload is dropped: no code path
constructs it, and the carried error value is irrelevant here. -/
inductive ParamDecodeError where
  | NotImplemented
  | BitRangeError
  | DecodeNotSupported
  | StringDecodeFailure
deriving DecidableEq

/-- Validity envelope (`Limit` in the source); stored but never consulted
by the decode logic.  `f32` fields are modelled as `ℚ`. -/
structure Limit where
  upper : ℚ
  lower : ℚ
deriving DecidableEq

/-- Modelled from the spec: the encoding marker carried by the `String`
data format ("String(encoding marker, currently only UTF-8-lossy is
implemented)").  The decode code ignores it (`DataFormat::String(_s)`),
so a single marker suffices. -/
inductive StringEncoding where
  | Utf8
deriving DecidableEq

/-- Modelled from the spec: one entry of a `Table` data format, "ordered
sequence of {start: float, end: float, name: string}".  The field called
`end` in the source is written `«end»` because `end` is a Lean keyword. -/
structure TableData where
  start : ℚ
  «end» : ℚ
  name : String
deriving DecidableEq

/-- Modelled from the spec: the `DataFormat` tagged union (defined in a
sibling file of the repository, outside the provided sources).  Variant
names and payloads are taken from the spec's data model section and from
the exhaustive matches in `service.rs`. -/
inductive DataFormat where
  | HexDump
  | String (enc : StringEncoding)
  | Bool (pos_name neg_name : Option String)
  | Table (t : List TableData)
  | Identical
  | Linear (multiplier offset : ℚ)
  | ScaleLinear
  | RatFunc
  | ScaleRatFunc
  | TableInterpretation
  | CompuCode (code : String)
deriving DecidableEq

/-- The schema unit for one decodable signal (`Parameter` in the source). -/
structure Parameter where
  name : String
  unit : String
  start_bit : Nat
  length_bits : Nat
  byte_order : ParamByteOrder
  data_format : DataFormat
  valid_bounds : Option Limit
deriving DecidableEq

/-- A named group of parameters (`Service` in the source). -/
structure Service where
  name : String
  description : String
  payload : List Nat
  input_params : List Parameter
  output_params : List Parameter
deriving DecidableEq

/-- `Service::service_has_input`. -/
def Service.service_has_input (s : Service) : Bool :=
  !s.input_params.isEmpty

/-- `Service::service_has_output`. -/
def Service.service_has_output (s : Service) : Bool :=
  !s.output_params.isEmpty

/-- Model of `u8::get_bits(range)` from the `bit_field` crate (v0.10),
which implements the single-byte bit-range read used by the extractor:
```
let range = to_regular_range(&range, Self::BIT_LENGTH);
assert!(range.start < Self::BIT_LENGTH);
assert!(range.end <= Self::BIT_LENGTH);
assert!(range.start < range.end);
let bits = *self << (Self::BIT_LENGTH - range.end) >> (Self::BIT_LENGTH - range.end);
bits >> range.start
```
Bit index 0 is the least-significant bit of the byte.  A failed assert
is a panic, modelled as `none`. -/
def u8GetBits (x a b : Nat) : Option Nat :=
  if a < 8 ∧ b ≤ 8 ∧ a < b then
    some (x * 2 ^ (8 - b) % 2 ^ 8 / 2 ^ (8 - b) / 2 ^ a)
  else
    none

/-- Model of `<[u8] as BitArray<u8>>::get_bits(rstart..rstop)` from the
`bit_field` crate (v0.10): a bit-range read of at most 8 bits that may
span two adjacent bytes of the slice.  Global bit index `i` addresses
bit `i % 8` (counting from the least-significant bit) of byte `i / 8`.
Out-of-bounds indexing and failed asserts are panics (`none`). -/
def sliceGetBits (resp : List Nat) (rstart rstop : Nat) : Option Nat :=
  if rstop - rstart > 8 then
    none
  else
    let slice_start := rstart / 8
    let slice_end := rstop / 8
    let bit_start := rstart % 8
    let bit_end := rstop % 8
    if slice_end - slice_start > 1 then
      none
    else if slice_start = slice_end then
      (resp[slice_start]?).bind fun x => u8GetBits x bit_start bit_end
    else if bit_end = 0 then
      (resp[slice_start]?).bind fun x => u8GetBits x bit_start 8
    else
      (resp[slice_start]?).bind fun x0 =>
      (resp[slice_end]?).bind fun x1 =>
      (u8GetBits x0 bit_start 8).bind fun lo =>
      (u8GetBits x1 0 bit_end).map fun hi =>
        lo ||| hi * 2 ^ (8 - bit_start) % 2 ^ 8

/-- Model of `byteorder::BigEndian::read_u16`: reads the first two bytes
of the slice, panicking (`none`) when fewer are present. -/
def readU16BE : List Nat → Option Nat
  | b0 :: b1 :: _ => some (b0 * 2 ^ 8 + b1)
  | _ => none

/-- Model of `byteorder::LittleEndian::read_u16`. -/
def readU16LE : List Nat → Option Nat
  | b0 :: b1 :: _ => some (b1 * 2 ^ 8 + b0)
  | _ => none

/-- Model of `byteorder::BigEndian::read_u32`: reads the first four bytes
of the slice, panicking (`none`) when fewer are present. -/
def readU32BE : List Nat → Option Nat
  | b0 :: b1 :: b2 :: b3 :: _ =>
    some (b0 * 2 ^ 24 + b1 * 2 ^ 16 + b2 * 2 ^ 8 + b3)
  | _ => none

/-- Model of `byteorder::LittleEndian::read_u32`. -/
def readU32LE : List Nat → Option Nat
  | b0 :: b1 :: b2 :: b3 :: _ =>
    some (b3 * 2 ^ 24 + b2 * 2 ^ 16 + b1 * 2 ^ 8 + b0)
  | _ => none

/-- The chunk-collection loop of `Parameter::get_number`:
```
let mut start = self.start_bit;
while start < self.length_bits + self.start_bit {
    let max_read = min(self.start_bit + self.length_bits, start + 8);
    buf.push(resp.get_bits(start..max_read));
    start += 8;
}
```
A panicking read propagates (`none`).  The recursion is driven by the
loop variant `stop - start` passed as structural fuel (so the model is
kernel-computable); `chunkLoop` below always supplies fuel
`stop - start`, which the loop never exhausts while `start < stop`, and
`chunkLoop_unfold` recovers the literal loop equation. -/
def chunkLoopGo (resp : List Nat) : Nat → Nat → Nat → Option (List Nat)
  | 0, _, _ => some []
  | fuel + 1, start, stop =>
    if start < stop then
      match sliceGetBits resp start (min stop (start + 8)) with
      | none => none
      | some c =>
        match chunkLoopGo resp fuel (start + 8) stop with
        | none => none
        | some rest => some (c :: rest)
    else
      some []

/-- The chunk-collection loop of `Parameter::get_number` (see
`chunkLoopGo`). -/
def chunkLoop (resp : List Nat) (start stop : Nat) : Option (List Nat) :=
  chunkLoopGo resp (stop - start) start stop

/-- The body of the `std::panic::catch_unwind` closure in
`Parameter::get_number`; `none` is a panic escaping the closure. -/
def getNumberCore (p : Parameter) (resp : List Nat) : Option Nat :=
  if p.length_bits ≤ 8 then
    sliceGetBits resp p.start_bit (p.start_bit + p.length_bits)
  else
    match chunkLoop resp p.start_bit (p.start_bit + p.length_bits) with
    | none => none
    | some buf =>
      if buf.length > 4 then
        none
      else if buf.length ≥ 4 then
        match p.byte_order with
        | .BigEndian => readU32BE buf
        | .LittleEndian => readU32LE buf
      else if buf.length ≥ 2 then
        match p.byte_order with
        | .BigEndian => readU16BE buf
        | .LittleEndian => readU16LE buf
      else
        some 0

/-- `Parameter::get_number`: the bit extractor.  Fields wider than 32
bits are rejected up front; a panic caught from the extraction closure
becomes `BitRangeError`. -/
def Parameter.get_number (p : Parameter) (resp : List Nat) :
    Except ParamDecodeError Nat :=
  if p.length_bits ≤ 32 then
    match getNumberCore p resp with
    | some r => .ok r
    | none => .error .BitRangeError
  else
    .error .BitRangeError

/-- `Parameter::get_unit`: `None` when the unit string is empty. -/
def Parameter.get_unit (p : Parameter) : Option String :=
  if p.unit = "" then none else some p.unit

/-- The unit-suffix append at the end of `decode_value_to_string`
(reached only by the fall-through branches, `Identical` and `Linear`):
```
if let Some(end) = self.get_unit() {
    result.push(' ');
    result.push_str(end.as_str());
}
```
-/
def appendUnit (p : Parameter) (result : String) : String :=
  match p.get_unit with
  | some u => result ++ " " ++ u
  | none => result

/-- Model of Rust's `format!("{}", x)` for an `f32` value: exact on
integral values (printed without a decimal point, matching Rust's
display of integral floats); non-integral values are abstracted as
`num/den` text, since the shortest-round-trip decimal rendering of a
float is outside this embedding.  No verified claim depends on the
rendering of a non-integral value. -/
def formatF32 (q : ℚ) : String :=
  if q.den = 1 then toString q.num else toString q.num ++ "/" ++ toString q.den

/-- Uppercase hex digit of a value below 16, as in `{:02X?}`. -/
def hexDigitChar (n : Nat) : Char :=
  if n < 10 then Char.ofNat (48 + n) else Char.ofNat (55 + n)

/-- Two-digit uppercase hex rendering of one byte, as produced for each
element by `format!("{:02X?}", slice)`. -/
def formatHexByte (b : Nat) : String :=
  String.mk [hexDigitChar (b / 16 % 16), hexDigitChar (b % 16)]

/-- Model of `format!("{:02X?}", slice)` on a byte slice: an uppercase
hex debug list such as `[DE, AD]`. -/
def formatHexDump (l : List Nat) : String :=
  "[" ++ String.intercalate ", " (l.map formatHexByte) ++ "]"

/-- The Unicode replacement character `U+FFFD`. -/
def replacementChar : Char := Char.ofNat 0xFFFD

/-- Model of the character stream produced by
`String::from_utf8_lossy`: standard UTF-8 decoding where every invalid
byte or invalid continuation run yields `U+FFFD`.  The model is total on
every byte list; it may emit one replacement character more than Rust on
some truncated multi-byte tails, a granularity no verified claim
observes. -/
def utf8LossyChars : List Nat → List Char
  | [] => []
  | b0 :: rest =>
    if b0 < 0x80 then
      Char.ofNat b0 :: utf8LossyChars rest
    else if 0xC2 ≤ b0 ∧ b0 ≤ 0xDF then
      match rest with
      | b1 :: rest1 =>
        if 0x80 ≤ b1 ∧ b1 ≤ 0xBF then
          Char.ofNat ((b0 - 0xC0) * 64 + (b1 - 0x80)) :: utf8LossyChars rest1
        else
          replacementChar :: utf8LossyChars (b1 :: rest1)
      | [] => [replacementChar]
    else if 0xE0 ≤ b0 ∧ b0 ≤ 0xEF then
      match rest with
      | b1 :: b2 :: rest2 =>
        if (if b0 = 0xE0 then 0xA0 ≤ b1 ∧ b1 ≤ 0xBF
            else if b0 = 0xED then 0x80 ≤ b1 ∧ b1 ≤ 0x9F
            else 0x80 ≤ b1 ∧ b1 ≤ 0xBF) ∧ 0x80 ≤ b2 ∧ b2 ≤ 0xBF then
          Char.ofNat ((b0 - 0xE0) * 4096 + (b1 - 0x80) * 64 + (b2 - 0x80)) ::
            utf8LossyChars rest2
        else
          replacementChar :: utf8LossyChars (b1 :: b2 :: rest2)
      | [b1] => replacementChar :: utf8LossyChars [b1]
      | [] => [replacementChar]
    else if 0xF0 ≤ b0 ∧ b0 ≤ 0xF4 then
      match rest with
      | b1 :: b2 :: b3 :: rest3 =>
        if (if b0 = 0xF0 then 0x90 ≤ b1 ∧ b1 ≤ 0xBF
            else if b0 = 0xF4 then 0x80 ≤ b1 ∧ b1 ≤ 0x8F
            else 0x80 ≤ b1 ∧ b1 ≤ 0xBF) ∧
            (0x80 ≤ b2 ∧ b2 ≤ 0xBF) ∧ (0x80 ≤ b3 ∧ b3 ≤ 0xBF) then
          Char.ofNat ((b0 - 0xF0) * 262144 + (b1 - 0x80) * 4096 +
              (b2 - 0x80) * 64 + (b3 - 0x80)) :: utf8LossyChars rest3
        else
          replacementChar :: utf8LossyChars (b1 :: b2 :: b3 :: rest3)
      | [b1, b2] => replacementChar :: utf8LossyChars [b1, b2]
      | [b1] => replacementChar :: utf8LossyChars [b1]
      | [] => [replacementChar]
    else
      replacementChar :: utf8LossyChars rest

/-- Model of `String::from_utf8_lossy(bytes).to_string()`. -/
def fromUtf8Lossy (l : List Nat) : String :=
  String.mk (utf8LossyChars l)

/-- Model of Rust slice indexing `&l[a..b]`: panics (`none`) when
`a > b` or `b > l.len()`. -/
def sliceRange (l : List Nat) (a b : Nat) : Option (List Nat) :=
  if a ≤ b ∧ b ≤ l.length then some ((l.drop a).take (b - a)) else none

/-- The `for v in t` scan of the `Table` branch of
`decode_value_to_string`: the name of the first entry whose bounds
satisfy `v.start >= raw && v.end <= raw`. -/
def tableScan (raw : ℚ) : List TableData → Option String
  | [] => none
  | v :: rest =>
    if v.start ≥ raw ∧ v.«end» ≤ raw then some v.name else tableScan raw rest

/-- `Parameter::decode_value_to_string`.  The outer `Option` records
whether the call panics (`none`), which only the uncaught byte-slicing
of the `HexDump` and `String` branches can cause. -/
def Parameter.decode_value_to_string (p : Parameter) (input : List Nat) :
    Option (Except ParamDecodeError String) :=
  match p.data_format with
  | .HexDump =>
    let start_byte := p.start_bit / 8
    let end_byte := (p.start_bit + p.length_bits) / 8
    (sliceRange input start_byte (min end_byte input.length)).map
      fun sl => .ok (formatHexDump sl)
  | .String _ =>
    let start_byte := p.start_bit / 8
    let end_byte := (p.start_bit + p.length_bits) / 8
    (sliceRange input start_byte end_byte).map
      fun sl => .ok (fromUtf8Lossy sl)
  | .Bool pos_name neg_name =>
    some (match p.get_number input with
      | .error e => .error e
      | .ok 0 => .ok (neg_name.getD "False")
      | .ok _ => .ok (pos_name.getD "True"))
  | .Table t =>
    some (match p.get_number input with
      | .error e => .error e
      | .ok n =>
        match tableScan ((n : ℚ)) t with
        | some nm => .ok nm
        | none => .ok ("Undefined (" ++ formatF32 ((n : ℚ)) ++ ")"))
  | .Identical =>
    some (match p.get_number input with
      | .error e => .error e
      | .ok n => .ok (appendUnit p (formatF32 ((n : ℚ)))))
  | .Linear multiplier offset =>
    some (match p.get_number input with
      | .error e => .error e
      | .ok n => .ok (appendUnit p (formatF32 ((n : ℚ) * multiplier + offset))))
  | .ScaleLinear => some (.error .NotImplemented)
  | .RatFunc => some (.error .NotImplemented)
  | .ScaleRatFunc => some (.error .NotImplemented)
  | .TableInterpretation => some (.error .NotImplemented)
  | .CompuCode _ => some (.error .NotImplemented)

/-- `Parameter::decode_value_to_number`.  No uncaught panic is possible
here, so the result is a plain `Except`. -/
def Parameter.decode_value_to_number (p : Parameter) (input : List Nat) :
    Except ParamDecodeError ℚ :=
  match p.data_format with
  | .HexDump => .error .DecodeNotSupported
  | .String _ => .error .DecodeNotSupported
  | .Bool _ _ =>
    match p.get_number input with
    | .error e => .error e
    | .ok n => .ok ((n : ℚ))
  | .Table _ => .error .DecodeNotSupported
  | .Identical => .error .NotImplemented
  | .Linear multiplier offset =>
    match p.get_number input with
    | .error e => .error e
    | .ok n => .ok ((n : ℚ) * multiplier + offset)
  | .ScaleLinear => .error .NotImplemented
  | .RatFunc => .error .NotImplemented
  | .ScaleRatFunc => .error .NotImplemented
  | .TableInterpretation => .error .NotImplemented
  | .CompuCode _ => .error .NotImplemented

/-- `Parameter::can_plot`. -/
def Parameter.can_plot (p : Parameter) : Bool :=
  match p.data_format with
  | .HexDump => false
  | .String _ => false
  | .Bool _ _ => true
  | .Table _ => false
  | .Identical => true
  | .Linear _ _ => true
  | .ScaleLinear => false
  | .RatFunc => false
  | .ScaleRatFunc => false
  | .TableInterpretation => false
  | .CompuCode _ => false

/-- Spec-side definition for the refinement claims: the value of global
bit `i` of a byte buffer under the bit numbering actually used by the
extractor, i.e. bit `i % 8` counting from the **least**-significant bit
of byte `i / 8`. -/
def bitAt (buf : List Nat) (i : Nat) : Nat :=
  buf.getD (i / 8) 0 / 2 ^ (i % 8) % 2

/-- Spec-side definition: manual bit-by-bit value of the bit range
`[a, b)`, least-significant-first (the bit at the lowest global index
contributes the lowest-weight bit of the chunk). -/
def chunkManual (buf : List Nat) (a b : Nat) : Nat :=
  ∑ j ∈ Finset.range (b - a), bitAt buf (a + j) * 2 ^ j

/-- Spec-side definition: the chunk bytes of a field, partitioned into
consecutive 8-bit reads starting at `start`, each ending at the next
8-bit step or at `stop`, whichever comes first.  Fuel-structured like
`chunkLoopGo`. -/
def manualChunkLoopGo (buf : List Nat) : Nat → Nat → Nat → List Nat
  | 0, _, _ => []
  | fuel + 1, start, stop =>
    if start < stop then
      chunkManual buf start (min stop (start + 8)) ::
        manualChunkLoopGo buf fuel (start + 8) stop
    else
      []

/-- Spec-side definition: the chunk bytes of a field (see
`manualChunkLoopGo`). -/
def manualChunkLoop (buf : List Nat) (start stop : Nat) : List Nat :=
  manualChunkLoopGo buf (stop - start) start stop

/-- Spec-side definition: big-endian assembly of a list of chunk bytes
(first chunk most significant). -/
def assembleBE (chunks : List Nat) : Nat :=
  chunks.foldl (fun acc b => acc * 2 ^ 8 + b) 0

/-- Spec-side definition for the amended C1: manual bit-by-bit
extraction of the field at `(s, L)`, reading bits
least-significant-first within each byte and assembling the chunk bytes
under the declared byte order (little-endian assembly reverses the
chunk sequence). -/
def manualExtract (buf : List Nat) (s L : Nat) (order : ParamByteOrder) : Nat :=
  match order with
  | .BigEndian => assembleBE (manualChunkLoop buf s (s + L))
  | .LittleEndian => assembleBE (manualChunkLoop buf s (s + L)).reverse

/-- Spec-side definition following C1's words as frozen: the value of
global bit `i` when bits are read **most**-significant-first within each
byte, i.e. bit `7 - i % 8` counting from the least-significant bit of
byte `i / 8`. -/
def bitAtMSB (buf : List Nat) (i : Nat) : Nat :=
  buf.getD (i / 8) 0 / 2 ^ (7 - i % 8) % 2

/-- Spec-side definition following C1's words as frozen: manual
bit-by-bit value of the bit range `[a, b)` when bits are read
most-significant-first (the first bit read is the most significant bit
of the chunk). -/
def chunkManualMSB (buf : List Nat) (a b : Nat) : Nat :=
  ∑ j ∈ Finset.range (b - a), bitAtMSB buf (a + j) * 2 ^ (b - a - 1 - j)

/-- Spec-side definition following C1's words as frozen: the chunk bytes
of a field under most-significant-first bit reading.  Fuel-structured
like `chunkLoopGo`. -/
def manualChunkLoopMSBGo (buf : List Nat) : Nat → Nat → Nat → List Nat
  | 0, _, _ => []
  | fuel + 1, start, stop =>
    if start < stop then
      chunkManualMSB buf start (min stop (start + 8)) ::
        manualChunkLoopMSBGo buf fuel (start + 8) stop
    else
      []

/-- Spec-side definition following C1's words as frozen: the chunk bytes
of a field under most-significant-first bit reading. -/
def manualChunkLoopMSB (buf : List Nat) (start stop : Nat) : List Nat :=
  manualChunkLoopMSBGo buf (stop - start) start stop

/-- Spec-side definition following C1's words as frozen: manual
extraction that reads bits most-significant-first within each byte and
assembles chunk bytes under the declared byte order. -/
def manualExtractMSB (buf : List Nat) (s L : Nat) (order : ParamByteOrder) : Nat :=
  match order with
  | .BigEndian => assembleBE (manualChunkLoopMSB buf s (s + L))
  | .LittleEndian => assembleBE (manualChunkLoopMSB buf s (s + L)).reverse

/-! ### Supporting lemmas about the bit-level model -/

theorem getElem?_eq_getD (l : List Nat) (i : Nat) (h : i < l.length) :
    l[i]? = some (l.getD i 0) := by
  rw [List.getElem?_eq_getElem h, List.getD_eq_getElem l 0 h]

/-- Any fuel at least the loop variant `stop - start` gives the same
result, so the fuel argument is a pure implementation device. -/
theorem chunkLoopGo_fuel (resp : List Nat) :
    ∀ f1 f2 start stop, stop - start ≤ f1 → stop - start ≤ f2 →
      chunkLoopGo resp f1 start stop = chunkLoopGo resp f2 start stop := by
  intro f1
  induction f1 with
  | zero =>
    intro f2 start stop h1 h2
    have hns : ¬start < stop := by omega
    cases f2 with
    | zero => rfl
    | succ f2 => simp only [chunkLoopGo, if_neg hns]
  | succ f1 ih =>
    intro f2 start stop h1 h2
    cases f2 with
    | zero =>
      have hns : ¬start < stop := by omega
      simp only [chunkLoopGo, if_neg hns]
    | succ f2 =>
      simp only [chunkLoopGo]
      by_cases hlt : start < stop
      · rw [if_pos hlt, if_pos hlt, ih f2 (start + 8) stop (by omega) (by omega)]
      · rw [if_neg hlt, if_neg hlt]

/-- `chunkLoop` satisfies the literal equation of the source's `while`
loop. -/
theorem chunkLoop_unfold (resp start stop : _) :
    chunkLoop resp start stop =
      if start < stop then
        match sliceGetBits resp start (min stop (start + 8)) with
        | none => none
        | some c =>
          match chunkLoop resp (start + 8) stop with
          | none => none
          | some rest => some (c :: rest)
      else some [] := by
  rw [chunkLoop]
  by_cases hlt : start < stop
  · obtain ⟨f, hf⟩ : ∃ f, stop - start = f + 1 := ⟨stop - start - 1, by omega⟩
    rw [hf]
    simp only [chunkLoopGo]
    rw [if_pos hlt, if_pos hlt,
      show chunkLoop resp (start + 8) stop
        = chunkLoopGo resp (stop - (start + 8)) (start + 8) stop from rfl,
      chunkLoopGo_fuel resp f (stop - (start + 8)) (start + 8) stop (by omega)
        (by omega)]
  · have h0 : stop - start = 0 := by omega
    rw [h0, if_neg hlt]
    rfl

theorem manualChunkLoopGo_fuel (buf : List Nat) :
    ∀ f1 f2 start stop, stop - start ≤ f1 → stop - start ≤ f2 →
      manualChunkLoopGo buf f1 start stop = manualChunkLoopGo buf f2 start stop := by
  intro f1
  induction f1 with
  | zero =>
    intro f2 start stop h1 h2
    have hns : ¬start < stop := by omega
    cases f2 with
    | zero => rfl
    | succ f2 => simp only [manualChunkLoopGo, if_neg hns]
  | succ f1 ih =>
    intro f2 start stop h1 h2
    cases f2 with
    | zero =>
      have hns : ¬start < stop := by omega
      simp only [manualChunkLoopGo, if_neg hns]
    | succ f2 =>
      simp only [manualChunkLoopGo]
      by_cases hlt : start < stop
      · rw [if_pos hlt, if_pos hlt, ih f2 (start + 8) stop (by omega) (by omega)]
      · rw [if_neg hlt, if_neg hlt]

/-- `manualChunkLoop` satisfies its literal loop equation. -/
theorem manualChunkLoop_unfold (buf start stop : _) :
    manualChunkLoop buf start stop =
      if start < stop then
        chunkManual buf start (min stop (start + 8)) ::
          manualChunkLoop buf (start + 8) stop
      else [] := by
  rw [manualChunkLoop]
  by_cases hlt : start < stop
  · obtain ⟨f, hf⟩ : ∃ f, stop - start = f + 1 := ⟨stop - start - 1, by omega⟩
    rw [hf]
    simp only [manualChunkLoopGo]
    rw [if_pos hlt, if_pos hlt,
      show manualChunkLoop buf (start + 8) stop
        = manualChunkLoopGo buf (stop - (start + 8)) (start + 8) stop from rfl,
      manualChunkLoopGo_fuel buf f (stop - (start + 8)) (start + 8) stop (by omega)
        (by omega)]
  · have h0 : stop - start = 0 := by omega
    rw [h0, if_neg hlt]
    rfl

/-- The little-endian binary expansion of a shifted value: summing bits
`a, a+1, ...` of `x` with weights `1, 2, ...` recovers `x / 2 ^ a`
modulo `2 ^ n`. -/
theorem bits_sum_eq (x a n : Nat) :
    ∑ j ∈ Finset.range n, x / 2 ^ (a + j) % 2 * 2 ^ j = x / 2 ^ a % 2 ^ n := by
  induction n with
  | zero => simp [Nat.mod_one]
  | succ n ih =>
    rw [Finset.sum_range_succ, ih, pow_succ, Nat.mod_mul]
    have hdd : x / 2 ^ (a + n) = x / 2 ^ a / 2 ^ n := by
      rw [Nat.div_div_eq_div_mul, pow_add]
    rw [hdd]
    ring

/-- The single-byte bit-range read returns the requested bit field. -/
theorem u8GetBits_eq (x a b : Nat) (ha : a < 8) (hb : b ≤ 8) (hab : a < b) :
    u8GetBits x a b = some (x / 2 ^ a % 2 ^ (b - a)) := by
  rw [u8GetBits, if_pos ⟨ha, hb, hab⟩]
  congr 1
  have h8 : (2 : Nat) ^ 8 = 2 ^ b * 2 ^ (8 - b) := by
    rw [← pow_add]
    congr 1
    omega
  rw [h8, Nat.mul_mod_mul_right, Nat.mul_div_cancel _ (by positivity)]
  have hb2 : (2 : Nat) ^ b = 2 ^ a * 2 ^ (b - a) := by
    rw [← pow_add]
    congr 1
    omega
  rw [hb2, Nat.mod_mul_right_div_self]

/-- A manual bit-by-bit read that stays inside one byte. -/
theorem chunkManual_single (buf : List Nat) (a b : Nat) (h : a % 8 + (b - a) ≤ 8) :
    chunkManual buf a b = buf.getD (a / 8) 0 / 2 ^ (a % 8) % 2 ^ (b - a) := by
  rw [chunkManual, ← bits_sum_eq (buf.getD (a / 8) 0) (a % 8) (b - a)]
  refine Finset.sum_congr rfl fun j hj => ?_
  rw [Finset.mem_range] at hj
  rw [bitAt]
  have h1 : (a + j) / 8 = a / 8 := by omega
  have h2 : (a + j) % 8 = a % 8 + j := by omega
  rw [h1, h2]

/-- A manual bit-by-bit read that crosses one byte boundary splits into
a low part from byte `a / 8` and a high part from byte `a / 8 + 1`. -/
theorem chunkManual_cross (buf : List Nat) (a b : Nat) (hw : b - a ≤ 8)
    (hcross : 8 - a % 8 < b - a) :
    chunkManual buf a b =
      buf.getD (a / 8) 0 / 2 ^ (a % 8) % 2 ^ (8 - a % 8) +
        buf.getD (a / 8 + 1) 0 % 2 ^ (b % 8) * 2 ^ (8 - a % 8) := by
  have hα : a % 8 < 8 := Nat.mod_lt _ (by norm_num)
  have hm1 : 1 ≤ 8 - a % 8 := by omega
  have hmw : 8 - a % 8 ≤ b - a := le_of_lt hcross
  rw [chunkManual]
  rw [Finset.range_eq_Ico,
    ← Finset.sum_Ico_consecutive _ (Nat.zero_le (8 - a % 8)) hmw,
    ← Finset.range_eq_Ico, Finset.sum_Ico_eq_sum_range]
  have hfirst :
      ∑ j ∈ Finset.range (8 - a % 8), bitAt buf (a + j) * 2 ^ j =
        buf.getD (a / 8) 0 / 2 ^ (a % 8) % 2 ^ (8 - a % 8) := by
    rw [← bits_sum_eq (buf.getD (a / 8) 0) (a % 8) (8 - a % 8)]
    refine Finset.sum_congr rfl fun j hj => ?_
    rw [Finset.mem_range] at hj
    rw [bitAt]
    have h1 : (a + j) / 8 = a / 8 := by omega
    have h2 : (a + j) % 8 = a % 8 + j := by omega
    rw [h1, h2]
  have hsecond :
      ∑ j ∈ Finset.range (b - a - (8 - a % 8)),
          bitAt buf (a + (8 - a % 8 + j)) * 2 ^ (8 - a % 8 + j) =
        buf.getD (a / 8 + 1) 0 % 2 ^ (b % 8) * 2 ^ (8 - a % 8) := by
    have hba : b - a - (8 - a % 8) = b % 8 := by omega
    have hterm : ∀ j ∈ Finset.range (b - a - (8 - a % 8)),
        bitAt buf (a + (8 - a % 8 + j)) * 2 ^ (8 - a % 8 + j) =
          buf.getD (a / 8 + 1) 0 / 2 ^ (0 + j) % 2 * 2 ^ j * 2 ^ (8 - a % 8) := by
      intro j hj
      rw [Finset.mem_range] at hj
      rw [bitAt]
      have h1 : (a + (8 - a % 8 + j)) / 8 = a / 8 + 1 := by omega
      have h2 : (a + (8 - a % 8 + j)) % 8 = j := by omega
      rw [h1, h2, pow_add, Nat.zero_add]
      ring
    rw [Finset.sum_congr rfl hterm, ← Finset.sum_mul,
      bits_sum_eq (buf.getD (a / 8 + 1) 0) 0 (b - a - (8 - a % 8)), hba,
      pow_zero, Nat.div_one]
  rw [hfirst, hsecond]

/-- Disjoint bitwise-or is addition: `x` occupies only the low `k` bits
and `y * 2 ^ k` only the high ones. -/
theorem lor_mul_pow_eq_add (k x y : Nat) (hx : x < 2 ^ k) :
    x ||| y * 2 ^ k = x + y * 2 ^ k := by
  apply Nat.eq_of_testBit_eq
  intro j
  have hadd : x + y * 2 ^ k = 2 ^ k * y + x := by ring
  have hshift := Nat.testBit_mul_pow_two_add y (b := 0) (i := k) (by positivity) j
  simp only [Nat.add_zero] at hshift
  rw [Nat.testBit_lor, hadd, Nat.testBit_mul_pow_two_add y hx j,
    Nat.mul_comm y (2 ^ k), hshift]
  by_cases hj : j < k
  · rw [if_pos hj, if_pos hj, Nat.zero_testBit, Bool.or_false]
  · rw [if_neg hj, if_neg hj]
    have hxf : Nat.testBit x j = false :=
      Nat.testBit_lt_two_pow
        (lt_of_lt_of_le hx (Nat.pow_le_pow_right (by norm_num) (by omega)))
    rw [hxf, Bool.false_or]

/-- An in-bounds slice bit-range read of width 1..8 returns exactly the
manual bit-by-bit value of the range. -/
theorem sliceGetBits_eq (resp : List Nat) (a b : Nat) (hab : a < b) (h8 : b - a ≤ 8)
    (hb : b ≤ 8 * resp.length) :
    sliceGetBits resp a b = some (chunkManual resp a b) := by
  have hstart_lt : a / 8 < resp.length := by omega
  simp only [sliceGetBits]
  rw [if_neg (by omega : ¬b - a > 8), if_neg (by omega : ¬b / 8 - a / 8 > 1)]
  by_cases heq : a / 8 = b / 8
  · rw [if_pos heq, getElem?_eq_getD _ _ hstart_lt, Option.some_bind,
      u8GetBits_eq _ _ _ (by omega) (by omega) (by omega),
      chunkManual_single _ _ _ (by omega)]
    have hrw : b % 8 - a % 8 = b - a := by omega
    rw [hrw]
  · rw [if_neg heq]
    by_cases hbe : b % 8 = 0
    · rw [if_pos hbe, getElem?_eq_getD _ _ hstart_lt, Option.some_bind,
        u8GetBits_eq _ _ _ (by omega) (by omega) (by omega),
        chunkManual_single _ _ _ (by omega)]
      have hrw : 8 - a % 8 = b - a := by omega
      rw [hrw]
    · have hend_lt : b / 8 < resp.length := by omega
      rw [if_neg hbe, getElem?_eq_getD _ _ hstart_lt, Option.some_bind,
        getElem?_eq_getD _ _ hend_lt, Option.some_bind,
        u8GetBits_eq _ _ _ (by omega) (by omega) (by omega), Option.some_bind,
        u8GetBits_eq _ _ _ (by omega) (by omega) (by omega), Option.map_some',
        chunkManual_cross _ _ _ h8 (by omega)]
    
      have hpos1 : 0 < (2 : Nat) ^ (8 - a % 8) := pow_pos (by norm_num) _
      have hpos2 : 0 < (2 : Nat) ^ (b % 8) := pow_pos (by norm_num) _
      have hhi : resp.getD (b / 8) 0 / 2 ^ 0 % 2 ^ (b % 8 - 0) =
          resp.getD (b / 8) 0 % 2 ^ (b % 8) := by
        rw [pow_zero, Nat.div_one, Nat.sub_zero]
      rw [hhi]
      have hmod : resp.getD (b / 8) 0 % 2 ^ (b % 8) * 2 ^ (8 - a % 8) % 2 ^ 8 =
          resp.getD (b / 8) 0 % 2 ^ (b % 8) * 2 ^ (8 - a % 8) := by
        apply Nat.mod_eq_of_lt
        calc resp.getD (b / 8) 0 % 2 ^ (b % 8) * 2 ^ (8 - a % 8)
            < 2 ^ (b % 8) * 2 ^ (8 - a % 8) :=
              (Nat.mul_lt_mul_right hpos1).mpr (Nat.mod_lt _ hpos2)
          _ = 2 ^ (b % 8 + (8 - a % 8)) := by rw [pow_add]
          _ ≤ 2 ^ 8 := Nat.pow_le_pow_right (by norm_num) (by omega)
      have hb8 : b / 8 = a / 8 + 1 := by omega
      rw [hmod, lor_mul_pow_eq_add _ _ _ (Nat.mod_lt _ hpos1), hb8]

/-- A slice bit-range read of width at most 8 whose end lies past the
buffer's bit-length panics. -/
theorem sliceGetBits_oob (resp : List Nat) (a b : Nat) (h8 : b - a ≤ 8)
    (hb : 8 * resp.length < b) :
    sliceGetBits resp a b = none := by
  simp only [sliceGetBits]
  rw [if_neg (by omega : ¬b - a > 8)]
  by_cases hd : b / 8 - a / 8 > 1
  · rw [if_pos hd]
  · rw [if_neg hd]
    by_cases heq : a / 8 = b / 8
    · rw [if_pos heq, List.getElem?_eq_none (by omega : resp.length ≤ a / 8),
        Option.none_bind]
    · rw [if_neg heq]
      by_cases hbe : b % 8 = 0
      · rw [if_pos hbe, List.getElem?_eq_none (by omega : resp.length ≤ a / 8),
          Option.none_bind]
      · rw [if_neg hbe]
        have hend : resp[b / 8]? = none :=
          List.getElem?_eq_none (by omega : resp.length ≤ b / 8)
        cases hfirst : resp[a / 8]? with
        | none => rw [Option.none_bind]
        | some x => rw [Option.some_bind, hend, Option.none_bind]

/-- When the whole field lies inside the buffer, the chunk-collection
loop succeeds and produces exactly the manual chunk bytes. -/
theorem chunkLoop_eq (resp : List Nat) (stop : Nat) (hstop : stop ≤ 8 * resp.length) :
    ∀ n start, stop - start ≤ n →
      chunkLoop resp start stop = some (manualChunkLoop resp start stop) := by
  intro n
  induction n with
  | zero =>
    intro start h
    rw [chunkLoop_unfold, manualChunkLoop_unfold]
    have hns : ¬start < stop := by omega
    rw [if_neg hns, if_neg hns]
  | succ n ih =>
    intro start h
    rw [chunkLoop_unfold, manualChunkLoop_unfold]
    by_cases hlt : start < stop
    · rw [if_pos hlt, if_pos hlt,
        sliceGetBits_eq resp start (min stop (start + 8)) (by omega) (by omega)
          (by omega),
        ih (start + 8) (by omega)]
    · rw [if_neg hlt, if_neg hlt]

/-- When the field's end lies past the buffer, the chunk-collection loop
panics. -/
theorem chunkLoop_oob (resp : List Nat) (stop : Nat) (hstop : 8 * resp.length < stop) :
    ∀ n start, stop - start ≤ n → start < stop → chunkLoop resp start stop = none := by
  intro n
  induction n with
  | zero => intro start h hlt; omega
  | succ n ih =>
    intro start h hlt
    rw [chunkLoop_unfold, if_pos hlt]
    by_cases hend : stop ≤ start + 8
    · have hmin : min stop (start + 8) = stop := by omega
      rw [hmin, sliceGetBits_oob resp start stop (by omega) hstop]
    · have hmin : min stop (start + 8) = start + 8 := by omega
      rw [hmin]
      cases hr : sliceGetBits resp start (start + 8) with
      | none => rfl
      | some c => rw [ih (start + 8) (by omega) (by omega)]

/-- The only error `get_number` ever produces is `BitRangeError`. -/
theorem get_number_error_eq (p : Parameter) (input : List Nat) (e : ParamDecodeError)
    (h : p.get_number input = .error e) : e = .BitRangeError := by
  rw [Parameter.get_number] at h
  by_cases h32 : p.length_bits ≤ 32
  · rw [if_pos h32] at h
    cases hc : getNumberCore p input with
    | some r => rw [hc] at h; exact Except.noConfusion h
    | none =>
      rw [hc] at h
      injection h with h'
      exact h'.symm
  · rw [if_neg h32] at h
    injection h with h'
    exact h'.symm

/-- A bit span that extends past the buffer's end always makes
`get_number` return `BitRangeError`. -/
theorem get_number_oob (p : Parameter) (input : List Nat)
    (h : 8 * input.length < p.start_bit + p.length_bits) :
    p.get_number input = .error .BitRangeError := by
  rw [Parameter.get_number]
  by_cases h32 : p.length_bits ≤ 32
  · have hcore : getNumberCore p input = none := by
      rw [getNumberCore]
      by_cases h8 : p.length_bits ≤ 8
      · rw [if_pos h8]
        exact sliceGetBits_oob _ _ _ (by omega) (by omega)
      · rw [if_neg h8,
          chunkLoop_oob input (p.start_bit + p.length_bits) (by omega)
            (p.start_bit + p.length_bits) p.start_bit (by omega) (by omega)]
    rw [if_pos h32, hcore]
  · rw [if_neg h32]

theorem assembleBE_one (c : Nat) : assembleBE [c] = c := by
  simp [assembleBE]

theorem assembleBE_two (c0 c1 : Nat) : assembleBE [c0, c1] = c0 * 2 ^ 8 + c1 := by
  simp [assembleBE]

theorem assembleBE_four (c0 c1 c2 c3 : Nat) :
    assembleBE [c0, c1, c2, c3] = c0 * 2 ^ 24 + c1 * 2 ^ 16 + c2 * 2 ^ 8 + c3 := by
  simp [assembleBE]
  ring

/-! ### C1 -/

/-- C1 (amended): for every in-bounds field with `length_bits` in
`[1,32]` whose chunk count is 1, 2 or 4 (i.e. excluding the 3-chunk
widths 17..24, which the extractor silently truncates — see C5),
`get_number` returns the manual bit-by-bit extraction that reads bits
**least**-significant-first within each byte and assembles the chunk
bytes under the declared byte order, zero-extended.  The frozen claim's
"most-significant-first" reading is refuted by
`C1_msb_counterexample`. -/
theorem C1_extractor_matches_lsb_manual (nm u : String) (s L : Nat)
    (order : ParamByteOrder) (fmt : DataFormat) (vb : Option Limit)
    (input : List Nat) (h1 : 1 ≤ L) (h32 : L ≤ 32) (hskip : L ≤ 16 ∨ 25 ≤ L)
    (hb : s + L ≤ 8 * input.length) :
    Parameter.get_number ⟨nm, u, s, L, order, fmt, vb⟩ input =
      .ok (manualExtract input s L order) := by
  have hcore : getNumberCore ⟨nm, u, s, L, order, fmt, vb⟩ input =
      some (manualExtract input s L order) := by
    simp only [getNumberCore]
    by_cases h8 : L ≤ 8
    · rw [if_pos h8, sliceGetBits_eq input s (s + L) (by omega) (by omega) (by omega)]
      have hml : manualChunkLoop input s (s + L) = [chunkManual input s (s + L)] := by
        rw [manualChunkLoop_unfold, if_pos (by omega : s < s + L)]
        have hmin : min (s + L) (s + 8) = s + L := by omega
        rw [hmin, manualChunkLoop_unfold, if_neg (by omega : ¬s + 8 < s + L)]
      cases order with
      | BigEndian => rw [manualExtract, hml, assembleBE_one]
      | LittleEndian =>
        rw [manualExtract, hml]
        simp [assembleBE_one]
    · rw [if_neg h8, chunkLoop_eq input (s + L) (by omega) (s + L) s (by omega)]
      rcases hskip with h16 | h25
      · have hml : manualChunkLoop input s (s + L) =
            [chunkManual input s (s + 8), chunkManual input (s + 8) (s + L)] := by
          rw [manualChunkLoop_unfold, if_pos (by omega : s < s + L)]
          have hmin1 : min (s + L) (s + 8) = s + 8 := by omega
          rw [hmin1, manualChunkLoop_unfold, if_pos (by omega : s + 8 < s + L)]
          have hmin2 : min (s + L) (s + 8 + 8) = s + L := by omega
          rw [hmin2, manualChunkLoop_unfold, if_neg (by omega : ¬s + 8 + 8 < s + L)]
        rw [hml]
        cases order with
        | BigEndian =>
          simp [manualExtract, hml, readU16BE, assembleBE_two]
        | LittleEndian =>
          simp [manualExtract, hml, readU16LE, assembleBE_two]
      · have hml : manualChunkLoop input s (s + L) =
            [chunkManual input s (s + 8), chunkManual input (s + 8) (s + 16),
              chunkManual input (s + 16) (s + 24),
              chunkManual input (s + 24) (s + L)] := by
          rw [manualChunkLoop_unfold, if_pos (by omega : s < s + L)]
          have hmin1 : min (s + L) (s + 8) = s + 8 := by omega
          rw [hmin1, manualChunkLoop_unfold, if_pos (by omega : s + 8 < s + L)]
          have hmin2 : min (s + L) (s + 8 + 8) = s + 16 := by omega
          rw [hmin2, manualChunkLoop_unfold, if_pos (by omega : s + 8 + 8 < s + L)]
          have hmin3 : min (s + L) (s + 8 + 8 + 8) = s + 24 := by omega
          rw [hmin3, manualChunkLoop_unfold, if_pos (by omega : s + 8 + 8 + 8 < s + L)]
          have hmin4 : min (s + L) (s + 8 + 8 + 8 + 8) = s + L := by omega
          rw [hmin4, manualChunkLoop_unfold,
            if_neg (by omega : ¬s + 8 + 8 + 8 + 8 < s + L)]
        rw [hml]
        cases order with
        | BigEndian =>
          simp [manualExtract, hml, readU32BE, assembleBE_four]
        | LittleEndian =>
          simp [manualExtract, hml, readU32LE, assembleBE_four]
  rw [Parameter.get_number, if_pos (by omega : L ≤ 32)]
  rw [hcore]

/-- Witness for C1 (amended): a concrete non-byte-aligned 12-bit
big-endian field, with every hypothesis discharged. -/
theorem C1_extractor_matches_lsb_manual_witness :
    1 ≤ 12 ∧ 12 ≤ 32 ∧ (12 ≤ 16 ∨ 25 ≤ 12) ∧
      3 + 12 ≤ 8 * ([0xAB, 0xCD, 0xEF] : List Nat).length ∧
      Parameter.get_number ⟨"n", "", 3, 12, .BigEndian, .Identical, none⟩
          [0xAB, 0xCD, 0xEF] =
        .ok (manualExtract [0xAB, 0xCD, 0xEF] 3 12 .BigEndian) :=
  ⟨by norm_num, by norm_num, Or.inl (by norm_num), by norm_num,
    C1_extractor_matches_lsb_manual "n" "" 3 12 .BigEndian .Identical none
      [0xAB, 0xCD, 0xEF] (by norm_num) (by norm_num) (Or.inl (by norm_num))
      (by norm_num)⟩

/-- Counterexample to C1 as frozen: on the in-range field
`start_bit = 0`, `length_bits = 4` over the buffer `[0x01]`, the
extractor returns 1 (it reads bit 0 as the least-significant bit of the
byte), while the claimed most-significant-first manual extraction
gives 0. -/
theorem C1_msb_counterexample :
    1 ≤ 4 ∧ 4 ≤ 32 ∧ 0 + 4 ≤ 8 * ([1] : List Nat).length ∧
    Parameter.get_number ⟨"n", "", 0, 4, .BigEndian, .Identical, none⟩ [1] = .ok 1 ∧
    manualExtractMSB [1] 0 4 .BigEndian = 0 ∧
    Parameter.get_number ⟨"n", "", 0, 4, .BigEndian, .Identical, none⟩ [1] ≠
      .ok (manualExtractMSB [1] 0 4 .BigEndian) := by
  decide

/-! ### C5 -/

/-- C5: evaluation of the code at the failing input.  A 24-bit field
(3 chunk bytes) does **not** fail with `BitRangeError`: the
`buf.len() >= 2` arm applies and `read_u16` silently drops the third
chunk byte, returning the 16-bit value of the first two chunks under
the declared byte order. -/
theorem C5_three_chunk_silent_truncation :
    Parameter.get_number ⟨"n", "", 0, 24, .BigEndian, .Identical, none⟩ [1, 2, 3]
      = .ok 258 ∧
    Parameter.get_number ⟨"n", "", 0, 24, .LittleEndian, .Identical, none⟩ [1, 2, 3]
      = .ok 513 ∧
    Parameter.get_number ⟨"n", "", 0, 24, .BigEndian, .Identical, none⟩ [1, 2, 3]
      ≠ .error .BitRangeError := by
  decide

/-! ### C2 and C6 -/

/-- Every decode path that consumes the bit extractor propagates an
extraction failure as `BitRangeError`. -/
theorem decodes_bitrange_of_extract (nm u : String) (s L : Nat)
    (order : ParamByteOrder) (vb : Option Limit) (input : List Nat)
    (h : Parameter.get_number ⟨nm, u, s, L, order, .HexDump, vb⟩ input =
      .error .BitRangeError) :
    (∀ pos neg, Parameter.decode_value_to_string
        ⟨nm, u, s, L, order, .Bool pos neg, vb⟩ input
        = some (.error .BitRangeError)) ∧
    (∀ t, Parameter.decode_value_to_string ⟨nm, u, s, L, order, .Table t, vb⟩ input
        = some (.error .BitRangeError)) ∧
    (Parameter.decode_value_to_string ⟨nm, u, s, L, order, .Identical, vb⟩ input
        = some (.error .BitRangeError)) ∧
    (∀ m o, Parameter.decode_value_to_string
        ⟨nm, u, s, L, order, .Linear m o, vb⟩ input
        = some (.error .BitRangeError)) ∧
    (∀ pos neg, Parameter.decode_value_to_number
        ⟨nm, u, s, L, order, .Bool pos neg, vb⟩ input
        = .error .BitRangeError) ∧
    (∀ m o, Parameter.decode_value_to_number
        ⟨nm, u, s, L, order, .Linear m o, vb⟩ input
        = .error .BitRangeError) := by
  refine ⟨fun pos neg => ?_, fun t => ?_, ?_, fun m o => ?_, fun pos neg => ?_,
    fun m o => ?_⟩
  · have h' : Parameter.get_number ⟨nm, u, s, L, order, .Bool pos neg, vb⟩ input
        = .error .BitRangeError := h
    simp only [Parameter.decode_value_to_string, h']
  · have h' : Parameter.get_number ⟨nm, u, s, L, order, .Table t, vb⟩ input
        = .error .BitRangeError := h
    simp only [Parameter.decode_value_to_string, h']
  · have h' : Parameter.get_number ⟨nm, u, s, L, order, .Identical, vb⟩ input
        = .error .BitRangeError := h
    simp only [Parameter.decode_value_to_string, h']
  · have h' : Parameter.get_number ⟨nm, u, s, L, order, .Linear m o, vb⟩ input
        = .error .BitRangeError := h
    simp only [Parameter.decode_value_to_string, h']
  · have h' : Parameter.get_number ⟨nm, u, s, L, order, .Bool pos neg, vb⟩ input
        = .error .BitRangeError := h
    simp only [Parameter.decode_value_to_number, h']
  · have h' : Parameter.get_number ⟨nm, u, s, L, order, .Linear m o, vb⟩ input
        = .error .BitRangeError := h
    simp only [Parameter.decode_value_to_number, h']

/-- C2 (amended): when the bit span `start_bit .. start_bit+length_bits`
extends past the buffer, only the decodes that reach the bit extractor
(`Bool`/`Table`/`Identical`/`Linear` as strings, `Bool`/`Linear` as
numbers) return `BitRangeError`.  Numeric decode of
`HexDump`/`String`/`Table` returns `DecodeNotSupported` regardless of
bounds; the `HexDump` string path clamps the byte range and returns a
(possibly truncated) `Ok` whenever `start_bit/8 ≤ len`, panicking
otherwise; the `String` string path returns `Ok` when
`(start_bit+length_bits)/8 ≤ len` and panics otherwise; unimplemented
formats keep `NotImplemented`. -/
theorem C2_out_of_bounds_behavior (nm u : String) (s L : Nat)
    (order : ParamByteOrder) (vb : Option Limit) (input : List Nat)
    (hoob : 8 * input.length < s + L) :
    (∀ pos neg, Parameter.decode_value_to_string
        ⟨nm, u, s, L, order, .Bool pos neg, vb⟩ input
        = some (.error .BitRangeError)) ∧
    (∀ t, Parameter.decode_value_to_string ⟨nm, u, s, L, order, .Table t, vb⟩ input
        = some (.error .BitRangeError)) ∧
    (Parameter.decode_value_to_string ⟨nm, u, s, L, order, .Identical, vb⟩ input
        = some (.error .BitRangeError)) ∧
    (∀ m o, Parameter.decode_value_to_string
        ⟨nm, u, s, L, order, .Linear m o, vb⟩ input
        = some (.error .BitRangeError)) ∧
    (∀ pos neg, Parameter.decode_value_to_number
        ⟨nm, u, s, L, order, .Bool pos neg, vb⟩ input
        = .error .BitRangeError) ∧
    (∀ m o, Parameter.decode_value_to_number
        ⟨nm, u, s, L, order, .Linear m o, vb⟩ input
        = .error .BitRangeError) ∧
    (Parameter.decode_value_to_number ⟨nm, u, s, L, order, .HexDump, vb⟩ input
        = .error .DecodeNotSupported) ∧
    (∀ enc, Parameter.decode_value_to_number
        ⟨nm, u, s, L, order, .String enc, vb⟩ input
        = .error .DecodeNotSupported) ∧
    (∀ t, Parameter.decode_value_to_number ⟨nm, u, s, L, order, .Table t, vb⟩ input
        = .error .DecodeNotSupported) ∧
    (s / 8 ≤ input.length → ∃ r, Parameter.decode_value_to_string
        ⟨nm, u, s, L, order, .HexDump, vb⟩ input = some (.ok r)) ∧
    (input.length < s / 8 → Parameter.decode_value_to_string
        ⟨nm, u, s, L, order, .HexDump, vb⟩ input = none) ∧
    (∀ enc, (s + L) / 8 ≤ input.length → ∃ r, Parameter.decode_value_to_string
        ⟨nm, u, s, L, order, .String enc, vb⟩ input = some (.ok r)) ∧
    (∀ enc, input.length < (s + L) / 8 → Parameter.decode_value_to_string
        ⟨nm, u, s, L, order, .String enc, vb⟩ input = none) ∧
    (Parameter.decode_value_to_string ⟨nm, u, s, L, order, .ScaleLinear, vb⟩ input
        = some (.error .NotImplemented)) ∧
    (Parameter.decode_value_to_number ⟨nm, u, s, L, order, .Identical, vb⟩ input
        = .error .NotImplemented) := by
  have hext : Parameter.get_number ⟨nm, u, s, L, order, .HexDump, vb⟩ input
      = .error .BitRangeError := get_number_oob _ _ hoob
  obtain ⟨h1, h2, h3, h4, h5, h6⟩ :=
    decodes_bitrange_of_extract nm u s L order vb input hext
  refine ⟨h1, h2, h3, h4, h5, h6, rfl, fun enc => rfl, fun t => rfl,
    ?_, ?_, fun enc hle => ?_, fun enc hgt => ?_, rfl, rfl⟩
  · intro hle
    refine ⟨formatHexDump
      ((input.drop (s / 8)).take (min ((s + L) / 8) input.length - s / 8)), ?_⟩
    simp only [Parameter.decode_value_to_string, sliceRange]
    rw [if_pos ⟨by omega, by omega⟩]
    rfl
  · intro hgt
    simp only [Parameter.decode_value_to_string, sliceRange]
    rw [if_neg (by omega)]
    rfl
  · refine ⟨fromUtf8Lossy ((input.drop (s / 8)).take ((s + L) / 8 - s / 8)), ?_⟩
    simp only [Parameter.decode_value_to_string, sliceRange]
    rw [if_pos ⟨by omega, by omega⟩]
    rfl
  · simp only [Parameter.decode_value_to_string, sliceRange]
    rw [if_neg (by omega)]
    rfl

/-- Counterexample to C2 as frozen: on buffer `[0xAB]` a 16-bit
`HexDump` span past the end returns a truncated `Ok("[AB]")`, not
`BitRangeError`, and its numeric decode returns `DecodeNotSupported`,
not `BitRangeError`. -/
theorem C2_counterexample :
    8 * ([0xAB] : List Nat).length < 0 + 16 ∧
    Parameter.decode_value_to_string ⟨"n", "", 0, 16, .BigEndian, .HexDump, none⟩
        [0xAB] = some (.ok "[AB]") ∧
    Parameter.decode_value_to_string ⟨"n", "", 0, 16, .BigEndian, .HexDump, none⟩
        [0xAB] ≠ some (.error .BitRangeError) ∧
    Parameter.decode_value_to_number ⟨"n", "", 0, 16, .BigEndian, .HexDump, none⟩
        [0xAB] = .error .DecodeNotSupported := by
  decide

/-- Witness for C2 (amended) at a concrete out-of-bounds input. -/
theorem C2_out_of_bounds_behavior_witness :
    8 * ([0xAB] : List Nat).length < 0 + 16 ∧
    Parameter.decode_value_to_string ⟨"n", "", 0, 16, .BigEndian, .Bool none none,
        none⟩ [0xAB] = some (.error .BitRangeError) ∧
    Parameter.decode_value_to_number ⟨"n", "", 0, 16, .BigEndian, .Linear 2 1,
        none⟩ [0xAB] = .error .BitRangeError ∧
    Parameter.decode_value_to_string ⟨"n", "", 0, 16, .BigEndian, .String .Utf8,
        none⟩ [0xAB] = none := by
  obtain ⟨h1, h2, h3, h4, h5, h6, h7, h8, h9, h10, h11, h12, h13, h14, h15⟩ :=
    C2_out_of_bounds_behavior "n" "" 0 16 .BigEndian none [0xAB] (by norm_num)
  exact ⟨by norm_num, h1 none none, h6 2 1, h13 .Utf8 (by norm_num)⟩

/-- C6 (amended): when `length_bits > 32`, the bit extractor always
fails with `BitRangeError` (for every buffer), and so does every decode
that invokes it; but decodes that bypass the extractor keep their usual
outcome: the `HexDump`/`String` string paths still return `Ok` (or
panic, per their slicing rules), numeric decode of
`HexDump`/`String`/`Table` returns `DecodeNotSupported`, and the
unimplemented formats return `NotImplemented`. -/
theorem C6_length_over_32_behavior (nm u : String) (s L : Nat)
    (order : ParamByteOrder) (vb : Option Limit) (input : List Nat)
    (h33 : 32 < L) :
    (∀ fmt, Parameter.get_number ⟨nm, u, s, L, order, fmt, vb⟩ input
        = .error .BitRangeError) ∧
    (∀ pos neg, Parameter.decode_value_to_string
        ⟨nm, u, s, L, order, .Bool pos neg, vb⟩ input
        = some (.error .BitRangeError)) ∧
    (∀ t, Parameter.decode_value_to_string ⟨nm, u, s, L, order, .Table t, vb⟩ input
        = some (.error .BitRangeError)) ∧
    (Parameter.decode_value_to_string ⟨nm, u, s, L, order, .Identical, vb⟩ input
        = some (.error .BitRangeError)) ∧
    (∀ m o, Parameter.decode_value_to_string
        ⟨nm, u, s, L, order, .Linear m o, vb⟩ input
        = some (.error .BitRangeError)) ∧
    (∀ pos neg, Parameter.decode_value_to_number
        ⟨nm, u, s, L, order, .Bool pos neg, vb⟩ input
        = .error .BitRangeError) ∧
    (∀ m o, Parameter.decode_value_to_number
        ⟨nm, u, s, L, order, .Linear m o, vb⟩ input
        = .error .BitRangeError) ∧
    (∀ t, Parameter.decode_value_to_number ⟨nm, u, s, L, order, .Table t, vb⟩ input
        = .error .DecodeNotSupported) ∧
    (s / 8 ≤ input.length → ∃ r, Parameter.decode_value_to_string
        ⟨nm, u, s, L, order, .HexDump, vb⟩ input = some (.ok r)) ∧
    (∀ enc, (s + L) / 8 ≤ input.length → ∃ r, Parameter.decode_value_to_string
        ⟨nm, u, s, L, order, .String enc, vb⟩ input = some (.ok r)) ∧
    (Parameter.decode_value_to_string ⟨nm, u, s, L, order, .CompuCode "x", vb⟩ input
        = some (.error .NotImplemented)) := by
  have hext : Parameter.get_number ⟨nm, u, s, L, order, .HexDump, vb⟩ input
      = .error .BitRangeError := by
    rw [Parameter.get_number, if_neg (show ¬L ≤ 32 by omega)]
  obtain ⟨h1, h2, h3, h4, h5, h6⟩ :=
    decodes_bitrange_of_extract nm u s L order vb input hext
  refine ⟨fun fmt => hext, h1, h2, h3, h4, h5, h6, fun t => rfl, ?_,
    fun enc hle => ?_, rfl⟩
  · intro hle
    refine ⟨formatHexDump
      ((input.drop (s / 8)).take (min ((s + L) / 8) input.length - s / 8)), ?_⟩
    simp only [Parameter.decode_value_to_string, sliceRange]
    rw [if_pos ⟨by omega, by omega⟩]
    rfl
  · refine ⟨fromUtf8Lossy ((input.drop (s / 8)).take ((s + L) / 8 - s / 8)), ?_⟩
    simp only [Parameter.decode_value_to_string, sliceRange]
    rw [if_pos ⟨by omega, by omega⟩]
    rfl

/-- Counterexample to C6 as frozen: with `length_bits = 33`, a `HexDump`
string decode over a 5-byte buffer succeeds with a dump of 4 bytes — it
does not yield `BitRangeError`. -/
theorem C6_counterexample :
    32 < 33 ∧
    Parameter.decode_value_to_string ⟨"n", "", 0, 33, .BigEndian, .HexDump, none⟩
        [0, 0, 0, 0, 0] = some (.ok "[00, 00, 00, 00]") ∧
    Parameter.decode_value_to_string ⟨"n", "", 0, 33, .BigEndian, .HexDump, none⟩
        [0, 0, 0, 0, 0] ≠ some (.error .BitRangeError) := by
  decide

/-- Witness for C6 (amended) at a concrete parameter with
`length_bits = 33`. -/
theorem C6_length_over_32_behavior_witness :
    32 < 33 ∧
    Parameter.get_number ⟨"n", "", 0, 33, .BigEndian, .Identical, none⟩
        [0, 0, 0, 0, 0] = .error .BitRangeError ∧
    Parameter.decode_value_to_string ⟨"n", "", 0, 33, .BigEndian, .Bool none none,
        none⟩ [0, 0, 0, 0, 0] = some (.error .BitRangeError) ∧
    (∃ r, Parameter.decode_value_to_string ⟨"n", "", 0, 33, .BigEndian, .HexDump,
        none⟩ [0, 0, 0, 0, 0] = some (.ok r)) := by
  obtain ⟨g, h1, h2, h3, h4, h5, h6, h7, h8, h9, h10⟩ :=
    C6_length_over_32_behavior "n" "" 0 33 .BigEndian none [0, 0, 0, 0, 0]
      (by norm_num)
  exact ⟨by norm_num, g .Identical, h1 none none, h8 (by norm_num)⟩

/-! ### C3 -/

/-- Characterization of the table scan: either no entry satisfies the
match condition (and the scan returns nothing), or the table splits
around the first matching entry, whose name is returned. -/
theorem tableScan_spec (raw : ℚ) (t : List TableData) :
    (tableScan raw t = none ∧ ∀ x ∈ t, ¬(x.start ≥ raw ∧ x.«end» ≤ raw)) ∨
    (∃ pre e post, t = pre ++ e :: post ∧ (e.start ≥ raw ∧ e.«end» ≤ raw) ∧
      (∀ x ∈ pre, ¬(x.start ≥ raw ∧ x.«end» ≤ raw)) ∧
      tableScan raw t = some e.name) := by
  induction t with
  | nil => exact Or.inl ⟨rfl, by simp⟩
  | cons v rest ih =>
    by_cases hv : v.start ≥ raw ∧ v.«end» ≤ raw
    · right
      exact ⟨[], v, rest, rfl, hv, by simp, by rw [tableScan, if_pos hv]⟩
    · rcases ih with ⟨hnone, hall⟩ | ⟨pre, e, post, heq, he, hpre, hscan⟩
      · left
        refine ⟨by rw [tableScan, if_neg hv, hnone], ?_⟩
        intro x hx
        rcases List.mem_cons.mp hx with rfl | hx
        · exact hv
        · exact hall x hx
      · right
        refine ⟨v :: pre, e, post, by rw [heq]; rfl, he, ?_, ?_⟩
        · intro x hx
          rcases List.mem_cons.mp hx with rfl | hx
          · exact hv
          · exact hpre x hx
        · rw [tableScan, if_neg hv, hscan]

/-- C3 (amended): for `Table` format the decode extracts the field as a
float `raw`, scans the entries in order under the source's condition
`start ≥ raw && end ≤ raw`, returns the first match's name, and falls
back to `"Undefined (<raw>)"`.  The frozen claim's parenthetical — that
a match forces `start = raw = end` — holds only for entries with
`start ≤ end`; an inverted entry (`start > end`) can match a strictly
interior `raw`, as `C3_counterexample` shows. -/
theorem C3_table_first_match (nm u : String) (s L : Nat) (order : ParamByteOrder)
    (vb : Option Limit) (t : List TableData) (input : List Nat) (v : Nat)
    (hget : Parameter.get_number ⟨nm, u, s, L, order, .Table t, vb⟩ input = .ok v) :
    (∀ e ∈ t, e.start ≤ e.«end» →
      (e.start ≥ (v : ℚ) ∧ e.«end» ≤ (v : ℚ)) →
      e.start = (v : ℚ) ∧ e.«end» = (v : ℚ)) ∧
    ((∃ pre e post, t = pre ++ e :: post ∧
        (e.start ≥ (v : ℚ) ∧ e.«end» ≤ (v : ℚ)) ∧
        (∀ x ∈ pre, ¬(x.start ≥ (v : ℚ) ∧ x.«end» ≤ (v : ℚ))) ∧
        Parameter.decode_value_to_string ⟨nm, u, s, L, order, .Table t, vb⟩ input
          = some (.ok e.name)) ∨
      ((∀ x ∈ t, ¬(x.start ≥ (v : ℚ) ∧ x.«end» ≤ (v : ℚ))) ∧
        Parameter.decode_value_to_string ⟨nm, u, s, L, order, .Table t, vb⟩ input
          = some (.ok ("Undefined (" ++ formatF32 (v : ℚ) ++ ")")))) := by
  constructor
  · rintro e he hse ⟨h1, h2⟩
    exact ⟨le_antisymm (by linarith) h1, le_antisymm h2 (by linarith)⟩
  · have hdec : Parameter.decode_value_to_string ⟨nm, u, s, L, order, .Table t, vb⟩
        input = some (match tableScan ((v : ℚ)) t with
          | some nm' => .ok nm'
          | none => .ok ("Undefined (" ++ formatF32 ((v : ℚ)) ++ ")")) := by
      simp only [Parameter.decode_value_to_string, hget]
    rcases tableScan_spec ((v : ℚ)) t with ⟨hnone, hall⟩ |
      ⟨pre, e, post, heq, he, hpre, hscan⟩
    · right
      refine ⟨hall, ?_⟩
      rw [hdec, hnone]
    · left
      exact ⟨pre, e, post, heq, he, hpre, by rw [hdec, hscan]⟩

/-- Counterexample to C3's parenthetical: the inverted entry
`{start := 5, end := 3}` matches `raw = 4` (since `5 ≥ 4 ∧ 3 ≤ 4`) and
its name is returned although `start ≠ raw`. -/
theorem C3_counterexample :
    Parameter.decode_value_to_string ⟨"n", "", 0, 8, .BigEndian,
        .Table [⟨5, 3, "X"⟩], none⟩ [4] = some (.ok "X") ∧
    (5 : ℚ) ≥ 4 ∧ (3 : ℚ) ≤ 4 ∧ ¬((5 : ℚ) = 4 ∧ (3 : ℚ) = 4) := by
  refine ⟨?_, by norm_num, by norm_num, by norm_num⟩
  norm_num [Parameter.decode_value_to_string, Parameter.get_number, getNumberCore,
    sliceGetBits, u8GetBits, tableScan]

/-- Witness for C3 (amended): a two-entry exact-match table where the
second entry matches raw value 4 and is returned. -/
theorem C3_table_first_match_witness :
    (∀ e ∈ ([⟨9, 9, "A"⟩, ⟨4, 4, "B"⟩] : List TableData), e.start ≤ e.«end» →
      (e.start ≥ ((4 : Nat) : ℚ) ∧ e.«end» ≤ ((4 : Nat) : ℚ)) →
      e.start = ((4 : Nat) : ℚ) ∧ e.«end» = ((4 : Nat) : ℚ)) ∧
    ((∃ pre e post, ([⟨9, 9, "A"⟩, ⟨4, 4, "B"⟩] : List TableData)
          = pre ++ e :: post ∧
        (e.start ≥ ((4 : Nat) : ℚ) ∧ e.«end» ≤ ((4 : Nat) : ℚ)) ∧
        (∀ x ∈ pre, ¬(x.start ≥ ((4 : Nat) : ℚ) ∧ x.«end» ≤ ((4 : Nat) : ℚ))) ∧
        Parameter.decode_value_to_string ⟨"n", "", 0, 8, .BigEndian,
            .Table [⟨9, 9, "A"⟩, ⟨4, 4, "B"⟩], none⟩ [4] = some (.ok e.name)) ∨
      ((∀ x ∈ ([⟨9, 9, "A"⟩, ⟨4, 4, "B"⟩] : List TableData),
          ¬(x.start ≥ ((4 : Nat) : ℚ) ∧ x.«end» ≤ ((4 : Nat) : ℚ))) ∧
        Parameter.decode_value_to_string ⟨"n", "", 0, 8, .BigEndian,
            .Table [⟨9, 9, "A"⟩, ⟨4, 4, "B"⟩], none⟩ [4]
          = some (.ok ("Undefined (" ++ formatF32 ((4 : Nat) : ℚ) ++ ")")))) :=
  C3_table_first_match "n" "" 0 8 .BigEndian none [⟨9, 9, "A"⟩, ⟨4, 4, "B"⟩] [4] 4
    (by decide)

/-! ### C4 -/

/-- C4 (amended): in `decode_value_to_string` a single space plus the
unit is appended if and only if the unit string is non-empty and the
format is `Identical` or `Linear`.  The `Bool` branch returns early and
never receives a suffix (refuted claim part, see `C4_counterexample`);
every other format's result is independent of the unit string. -/
theorem C4_unit_suffix (nm u : String) (s L : Nat) (order : ParamByteOrder)
    (vb : Option Limit) (input : List Nat) :
    (∀ v : Nat, Parameter.get_number ⟨nm, u, s, L, order, .Identical, vb⟩ input
        = .ok v →
      (u = "" → Parameter.decode_value_to_string
          ⟨nm, u, s, L, order, .Identical, vb⟩ input
          = some (.ok (formatF32 (v : ℚ)))) ∧
      (u ≠ "" → Parameter.decode_value_to_string
          ⟨nm, u, s, L, order, .Identical, vb⟩ input
          = some (.ok (formatF32 (v : ℚ) ++ " " ++ u)))) ∧
    (∀ (m o : ℚ) (v : Nat), Parameter.get_number
        ⟨nm, u, s, L, order, .Linear m o, vb⟩ input = .ok v →
      (u = "" → Parameter.decode_value_to_string
          ⟨nm, u, s, L, order, .Linear m o, vb⟩ input
          = some (.ok (formatF32 ((v : ℚ) * m + o)))) ∧
      (u ≠ "" → Parameter.decode_value_to_string
          ⟨nm, u, s, L, order, .Linear m o, vb⟩ input
          = some (.ok (formatF32 ((v : ℚ) * m + o) ++ " " ++ u)))) ∧
    (∀ (pos neg : Option String) (v : Nat), Parameter.get_number
        ⟨nm, u, s, L, order, .Bool pos neg, vb⟩ input = .ok v →
      Parameter.decode_value_to_string ⟨nm, u, s, L, order, .Bool pos neg, vb⟩ input
        = some (.ok (if v = 0 then neg.getD "False" else pos.getD "True"))) ∧
    (∀ fmt, fmt ≠ .Identical → (∀ m o, fmt ≠ .Linear m o) →
      Parameter.decode_value_to_string ⟨nm, u, s, L, order, fmt, vb⟩ input
        = Parameter.decode_value_to_string ⟨nm, "", s, L, order, fmt, vb⟩ input) := by
  refine ⟨fun v hv => ⟨fun hu => ?_, fun hu => ?_⟩,
    fun m o v hv => ⟨fun hu => ?_, fun hu => ?_⟩, fun pos neg v hv => ?_,
    fun fmt hni hnl => ?_⟩
  · subst hu
    simp [Parameter.decode_value_to_string, hv, appendUnit, Parameter.get_unit]
  · simp [Parameter.decode_value_to_string, hv, appendUnit, Parameter.get_unit, hu]
  · subst hu
    simp [Parameter.decode_value_to_string, hv, appendUnit, Parameter.get_unit]
  · simp [Parameter.decode_value_to_string, hv, appendUnit, Parameter.get_unit, hu]
  · cases v with
    | zero => simp [Parameter.decode_value_to_string, hv]
    | succ n => simp [Parameter.decode_value_to_string, hv]
  · cases fmt with
    | Identical => exact absurd rfl hni
    | Linear m o => exact absurd rfl (hnl m o)
    | HexDump => rfl
    | String enc => rfl
    | Bool pos neg => rfl
    | Table t => rfl
    | ScaleLinear => rfl
    | RatFunc => rfl
    | ScaleRatFunc => rfl
    | TableInterpretation => rfl
    | CompuCode c => rfl

/-- Counterexample to C4 as frozen: a `Bool` parameter with non-empty
unit `"V"` decodes bit value 0 to plain `"False"` — the unit suffix is
not appended because the `Bool` arm returns before the suffix code. -/
theorem C4_counterexample :
    "V" ≠ "" ∧
    Parameter.decode_value_to_string ⟨"n", "V", 0, 1, .BigEndian, .Bool none none,
        none⟩ [0] = some (.ok "False") ∧
    Parameter.decode_value_to_string ⟨"n", "V", 0, 1, .BigEndian, .Bool none none,
        none⟩ [0] ≠ some (.ok "False V") := by
  decide

/-- Witness for C4 (amended): with unit `"V"`, `Identical` gets the
suffix and `Bool` does not. -/
theorem C4_unit_suffix_witness :
    Parameter.decode_value_to_string ⟨"n", "V", 0, 8, .BigEndian, .Identical, none⟩
        [42] = some (.ok (formatF32 ((42 : Nat) : ℚ) ++ " " ++ "V")) ∧
    Parameter.decode_value_to_string ⟨"n", "V", 0, 8, .BigEndian, .Bool none none,
        none⟩ [42] = some (.ok "True") := by
  obtain ⟨hid, hlin, hbool, hother⟩ := C4_unit_suffix "n" "V" 0 8 .BigEndian none [42]
  refine ⟨(hid 42 (by decide)).2 (by decide), ?_⟩
  have h := hbool none none 42 (by decide)
  rw [h]
  decide

/-! ### C7 and C8 -/

/-- C7: the complete outcome table of `decode_value_to_number`: the
extracted field cast to float for `Bool`; `v*multiplier + offset` for
`Linear`; `DecodeNotSupported` for `HexDump`, `String` and `Table`; and
`NotImplemented` for `Identical` and the five unimplemented formats —
so `Identical` fails numerically even though its string path works. -/
theorem C7_number_decode_outcomes (nm u : String) (s L : Nat)
    (order : ParamByteOrder) (vb : Option Limit) (input : List Nat) :
    (∀ (pos neg : Option String) (v : Nat),
      Parameter.get_number ⟨nm, u, s, L, order, .Bool pos neg, vb⟩ input = .ok v →
      Parameter.decode_value_to_number ⟨nm, u, s, L, order, .Bool pos neg, vb⟩ input
        = .ok ((v : ℚ))) ∧
    (∀ (m o : ℚ) (v : Nat),
      Parameter.get_number ⟨nm, u, s, L, order, .Linear m o, vb⟩ input = .ok v →
      Parameter.decode_value_to_number ⟨nm, u, s, L, order, .Linear m o, vb⟩ input
        = .ok ((v : ℚ) * m + o)) ∧
    (Parameter.decode_value_to_number ⟨nm, u, s, L, order, .HexDump, vb⟩ input
      = .error .DecodeNotSupported) ∧
    (∀ enc, Parameter.decode_value_to_number ⟨nm, u, s, L, order, .String enc, vb⟩
        input = .error .DecodeNotSupported) ∧
    (∀ t, Parameter.decode_value_to_number ⟨nm, u, s, L, order, .Table t, vb⟩ input
      = .error .DecodeNotSupported) ∧
    (Parameter.decode_value_to_number ⟨nm, u, s, L, order, .Identical, vb⟩ input
      = .error .NotImplemented) ∧
    (Parameter.decode_value_to_number ⟨nm, u, s, L, order, .ScaleLinear, vb⟩ input
      = .error .NotImplemented) ∧
    (Parameter.decode_value_to_number ⟨nm, u, s, L, order, .RatFunc, vb⟩ input
      = .error .NotImplemented) ∧
    (Parameter.decode_value_to_number ⟨nm, u, s, L, order, .ScaleRatFunc, vb⟩ input
      = .error .NotImplemented) ∧
    (Parameter.decode_value_to_number
        ⟨nm, u, s, L, order, .TableInterpretation, vb⟩ input
      = .error .NotImplemented) ∧
    (∀ c, Parameter.decode_value_to_number ⟨nm, u, s, L, order, .CompuCode c, vb⟩
        input = .error .NotImplemented) :=
  ⟨fun pos neg v hv => by simp only [Parameter.decode_value_to_number, hv],
    fun m o v hv => by simp only [Parameter.decode_value_to_number, hv],
    rfl, fun enc => rfl, fun t => rfl, rfl, rfl, rfl, rfl, rfl, fun c => rfl⟩

/-- Witness for C7 at raw value 10 (in bounds). -/
theorem C7_number_decode_outcomes_witness :
    Parameter.get_number ⟨"n", "", 0, 8, .BigEndian, .Bool none none, none⟩ [10]
      = .ok 10 ∧
    Parameter.decode_value_to_number ⟨"n", "", 0, 8, .BigEndian, .Bool none none,
        none⟩ [10] = .ok ((10 : Nat) : ℚ) ∧
    Parameter.decode_value_to_number ⟨"n", "", 0, 8, .BigEndian, .Linear 2 1, none⟩
        [10] = .ok (((10 : Nat) : ℚ) * 2 + 1) ∧
    Parameter.decode_value_to_number ⟨"n", "", 0, 8, .BigEndian, .Identical, none⟩
        [10] = .error .NotImplemented ∧
    Parameter.decode_value_to_number ⟨"n", "", 0, 8, .BigEndian, .Table [], none⟩
        [10] = .error .DecodeNotSupported := by
  obtain ⟨h1, h2, h3, h4, h5, h6, h7, h8, h9, h10, h11⟩ :=
    C7_number_decode_outcomes "n" "" 0 8 .BigEndian none [10]
  exact ⟨by decide, h1 none none 10 (by decide), h2 2 1 10 (by decide), h6, h5 []⟩

/-- C8: Linear decode is affine — for every raw integer `v` the numeric
decode returns exactly `v * multiplier + offset` (float operations
modelled as exact rational arithmetic). -/
theorem C8_linear_affine (nm u : String) (s L : Nat) (order : ParamByteOrder)
    (vb : Option Limit) (m o : ℚ) (input : List Nat) (v : Nat)
    (hget : Parameter.get_number ⟨nm, u, s, L, order, .Linear m o, vb⟩ input
      = .ok v) :
    Parameter.decode_value_to_number ⟨nm, u, s, L, order, .Linear m o, vb⟩ input
      = .ok ((v : ℚ) * m + o) := by
  simp only [Parameter.decode_value_to_number, hget]

/-- Witness for C8, realizing the spec's Scenario E: multiplier 2,
offset 1, raw value 10 decodes to 21. -/
theorem C8_linear_affine_witness :
    Parameter.get_number ⟨"n", "", 0, 8, .BigEndian, .Linear 2 1, none⟩ [10]
      = .ok 10 ∧
    Parameter.decode_value_to_number ⟨"n", "", 0, 8, .BigEndian, .Linear 2 1, none⟩
        [10] = .ok 21 := by
  have h := C8_linear_affine "n" "" 0 8 .BigEndian none 2 1 [10] 10 (by decide)
  refine ⟨by decide, ?_⟩
  rw [h]
  norm_num

/-! ### C9 -/

/-- C9: no operation ever returns `StringDecodeFailure` — the `String`
format decodes the byte range with lossy UTF-8 replacement and succeeds
on every byte content whenever the slice is in bounds. -/
theorem C9_no_string_decode_failure (p : Parameter) (input : List Nat) :
    Parameter.decode_value_to_string p input
      ≠ some (.error .StringDecodeFailure) ∧
    Parameter.decode_value_to_number p input ≠ .error .StringDecodeFailure ∧
    p.get_number input ≠ .error .StringDecodeFailure ∧
    (∀ enc, p.data_format = .String enc →
      (p.start_bit + p.length_bits) / 8 ≤ input.length →
      Parameter.decode_value_to_string p input = some (.ok (fromUtf8Lossy
        ((input.drop (p.start_bit / 8)).take
          ((p.start_bit + p.length_bits) / 8 - p.start_bit / 8))))) := by
  obtain ⟨nm, u, s, L, order, fmt, vb⟩ := p
  have hgn : Parameter.get_number ⟨nm, u, s, L, order, fmt, vb⟩ input
      ≠ .error .StringDecodeFailure := by
    intro h
    exact ParamDecodeError.noConfusion (get_number_error_eq _ _ _ h)
  refine ⟨?_, ?_, hgn, fun enc henc hle => ?_⟩
  · cases hfmt : fmt with
    | HexDump =>
      subst hfmt
      cases hs : sliceRange input (s / 8) (min ((s + L) / 8) input.length) with
      | none => simp [Parameter.decode_value_to_string, hs]
      | some sl => simp [Parameter.decode_value_to_string, hs]
    | String enc =>
      subst hfmt
      cases hs : sliceRange input (s / 8) ((s + L) / 8) with
      | none => simp [Parameter.decode_value_to_string, hs]
      | some sl => simp [Parameter.decode_value_to_string, hs]
    | Bool pos neg =>
      subst hfmt
      cases hg : Parameter.get_number ⟨nm, u, s, L, order, .Bool pos neg, vb⟩ input
        with
      | error e =>
        have he : e = .BitRangeError := get_number_error_eq _ _ _ hg
        subst he
        simp [Parameter.decode_value_to_string, hg]
      | ok v => cases v <;> simp [Parameter.decode_value_to_string, hg]
    | Table t =>
      subst hfmt
      cases hg : Parameter.get_number ⟨nm, u, s, L, order, .Table t, vb⟩ input with
      | error e =>
        have he : e = .BitRangeError := get_number_error_eq _ _ _ hg
        subst he
        simp [Parameter.decode_value_to_string, hg]
      | ok v =>
        cases ht : tableScan ((v : ℚ)) t with
        | none => simp [Parameter.decode_value_to_string, hg, ht]
        | some nm' => simp [Parameter.decode_value_to_string, hg, ht]
    | Identical =>
      subst hfmt
      cases hg : Parameter.get_number ⟨nm, u, s, L, order, .Identical, vb⟩ input
        with
      | error e =>
        have he : e = .BitRangeError := get_number_error_eq _ _ _ hg
        subst he
        simp [Parameter.decode_value_to_string, hg]
      | ok v => simp [Parameter.decode_value_to_string, hg]
    | Linear m o =>
      subst hfmt
      cases hg : Parameter.get_number ⟨nm, u, s, L, order, .Linear m o, vb⟩ input
        with
      | error e =>
        have he : e = .BitRangeError := get_number_error_eq _ _ _ hg
        subst he
        simp [Parameter.decode_value_to_string, hg]
      | ok v => simp [Parameter.decode_value_to_string, hg]
    | ScaleLinear => subst hfmt; simp [Parameter.decode_value_to_string]
    | RatFunc => subst hfmt; simp [Parameter.decode_value_to_string]
    | ScaleRatFunc => subst hfmt; simp [Parameter.decode_value_to_string]
    | TableInterpretation => subst hfmt; simp [Parameter.decode_value_to_string]
    | CompuCode c => subst hfmt; simp [Parameter.decode_value_to_string]
  · cases hfmt : fmt with
    | Bool pos neg =>
      subst hfmt
      cases hg : Parameter.get_number ⟨nm, u, s, L, order, .Bool pos neg, vb⟩ input
        with
      | error e =>
        have he : e = .BitRangeError := get_number_error_eq _ _ _ hg
        subst he
        simp [Parameter.decode_value_to_number, hg]
      | ok v => simp [Parameter.decode_value_to_number, hg]
    | Linear m o =>
      subst hfmt
      cases hg : Parameter.get_number ⟨nm, u, s, L, order, .Linear m o, vb⟩ input
        with
      | error e =>
        have he : e = .BitRangeError := get_number_error_eq _ _ _ hg
        subst he
        simp [Parameter.decode_value_to_number, hg]
      | ok v => simp [Parameter.decode_value_to_number, hg]
    | HexDump => subst hfmt; simp [Parameter.decode_value_to_number]
    | String enc => subst hfmt; simp [Parameter.decode_value_to_number]
    | Table t => subst hfmt; simp [Parameter.decode_value_to_number]
    | Identical => subst hfmt; simp [Parameter.decode_value_to_number]
    | ScaleLinear => subst hfmt; simp [Parameter.decode_value_to_number]
    | RatFunc => subst hfmt; simp [Parameter.decode_value_to_number]
    | ScaleRatFunc => subst hfmt; simp [Parameter.decode_value_to_number]
    | TableInterpretation => subst hfmt; simp [Parameter.decode_value_to_number]
    | CompuCode c => subst hfmt; simp [Parameter.decode_value_to_number]
  · subst henc
    simp only [Parameter.decode_value_to_string, sliceRange]
    rw [if_pos ⟨by omega, hle⟩]
    rfl

/-- Witness for C9: the ASCII bytes of `"Hi"` decode losslessly and the
reserved error is not produced. -/
theorem C9_no_string_decode_failure_witness :
    Parameter.decode_value_to_string ⟨"n", "", 0, 16, .BigEndian, .String .Utf8,
        none⟩ [72, 105] = some (.ok "Hi") ∧
    Parameter.decode_value_to_number ⟨"n", "", 0, 16, .BigEndian, .String .Utf8,
        none⟩ [72, 105] ≠ .error .StringDecodeFailure := by
  obtain ⟨h1, h2, h3, h4⟩ := C9_no_string_decode_failure
    ⟨"n", "", 0, 16, .BigEndian, .String .Utf8, none⟩ [72, 105]
  refine ⟨?_, h2⟩
  have h := h4 .Utf8 rfl (by norm_num)
  rw [h]
  decide

/-! ### C10 -/

/-- C10: for single-chunk fields (`length_bits ≤ 8`) the declared byte
order is never consulted: the extractor and both decode entry points
give identical results under `BigEndian` and `LittleEndian`. -/
theorem C10_byte_order_irrelevant_single_chunk (nm u : String) (s L : Nat)
    (fmt : DataFormat) (vb : Option Limit) (input : List Nat) (h8 : L ≤ 8) :
    Parameter.get_number ⟨nm, u, s, L, .BigEndian, fmt, vb⟩ input
      = Parameter.get_number ⟨nm, u, s, L, .LittleEndian, fmt, vb⟩ input ∧
    Parameter.decode_value_to_string ⟨nm, u, s, L, .BigEndian, fmt, vb⟩ input
      = Parameter.decode_value_to_string ⟨nm, u, s, L, .LittleEndian, fmt, vb⟩
        input ∧
    Parameter.decode_value_to_number ⟨nm, u, s, L, .BigEndian, fmt, vb⟩ input
      = Parameter.decode_value_to_number ⟨nm, u, s, L, .LittleEndian, fmt, vb⟩
        input := by
  have hgn : ∀ fmt', Parameter.get_number ⟨nm, u, s, L, .BigEndian, fmt', vb⟩ input
      = Parameter.get_number ⟨nm, u, s, L, .LittleEndian, fmt', vb⟩ input := by
    intro fmt'
    have hcore : getNumberCore ⟨nm, u, s, L, .BigEndian, fmt', vb⟩ input
        = getNumberCore ⟨nm, u, s, L, .LittleEndian, fmt', vb⟩ input := by
      rw [getNumberCore, getNumberCore, if_pos (show L ≤ 8 from h8),
        if_pos (show L ≤ 8 from h8)]
    rw [Parameter.get_number, Parameter.get_number,
      if_pos (show L ≤ 32 by omega), if_pos (show L ≤ 32 by omega), hcore]
  refine ⟨hgn fmt, ?_, ?_⟩
  · cases fmt with
    | HexDump => rfl
    | String enc => rfl
    | Bool pos neg => simp only [Parameter.decode_value_to_string, hgn (.Bool pos neg)]
    | Table t => simp only [Parameter.decode_value_to_string, hgn (.Table t)]
    | Identical =>
      simp only [Parameter.decode_value_to_string, hgn .Identical]
      cases Parameter.get_number ⟨nm, u, s, L, .LittleEndian, .Identical, vb⟩ input
        <;> rfl
    | Linear m o =>
      simp only [Parameter.decode_value_to_string, hgn (.Linear m o)]
      cases Parameter.get_number ⟨nm, u, s, L, .LittleEndian, .Linear m o, vb⟩ input
        <;> rfl
    | ScaleLinear => rfl
    | RatFunc => rfl
    | ScaleRatFunc => rfl
    | TableInterpretation => rfl
    | CompuCode c => rfl
  · cases fmt with
    | HexDump => rfl
    | String enc => rfl
    | Bool pos neg => simp only [Parameter.decode_value_to_number, hgn (.Bool pos neg)]
    | Table t => rfl
    | Identical => rfl
    | Linear m o => simp only [Parameter.decode_value_to_number, hgn (.Linear m o)]
    | ScaleLinear => rfl
    | RatFunc => rfl
    | ScaleRatFunc => rfl
    | TableInterpretation => rfl
    | CompuCode c => rfl

/-- Witness for C10: an 8-bit field decodes identically under both byte
orders. -/
theorem C10_byte_order_irrelevant_single_chunk_witness :
    (8 : Nat) ≤ 8 ∧
    Parameter.get_number ⟨"n", "", 0, 8, .BigEndian, .Identical, none⟩ [42]
      = Parameter.get_number ⟨"n", "", 0, 8, .LittleEndian, .Identical, none⟩
        [42] ∧
    Parameter.decode_value_to_string ⟨"n", "", 0, 8, .BigEndian, .Identical, none⟩
        [42]
      = Parameter.decode_value_to_string
        ⟨"n", "", 0, 8, .LittleEndian, .Identical, none⟩ [42] := by
  obtain ⟨h1, h2, h3⟩ :=
    C10_byte_order_irrelevant_single_chunk "n" "" 0 8 .Identical none [42]
      (by norm_num)
  exact ⟨by norm_num, h1, h2⟩
